import Mathlib

/-!
Shallow embedding of the log-preservation subsystem of
`charts/logpilot/src/main.py` (a Kubernetes pod-log viewer/archiver), together
with spec-modelled definitions for the pieces that live in the `log_archiver`
module (which is not among the sources): the lifecycle watcher, the retention
sweep and the purge primitive.

Filesystem state is modelled as a list of `LogFile` records whose `path` is the
path relative to the archive root `LOG_DIR` (nested entries are paths containing
a slash); `os.walk`-based recursive discovery over that tree is the traversal of
this list.  Strings are handled through their underlying character lists.
-/

/-- Python's single-character whitespace class, ASCII part (space, tab,
newline, carriage return, vertical tab, form feed). -/
def isSpaceChar (c : Char) : Bool :=
  c == ' ' || c == '\t' || c == '\n' || c == '\r' || c == Char.ofNat 11 || c == Char.ofNat 12

/-- Whether `needle` is a leading segment of `hay` (used to implement Python's
substring operator `in`). -/
def listPrefixEq : List Char → List Char → Bool
  | [], _ => true
  | _ :: _, [] => false
  | a :: as, b :: bs => a == b && listPrefixEq as bs

/-- Python's substring test `needle in hay`. -/
def containsSub : List Char → List Char → Bool
  | needle, [] => needle.isEmpty
  | needle, c :: t => listPrefixEq needle (c :: t) || containsSub needle t

/-- Python's `own in s` on strings (substring containment). -/
def strContains (own s : String) : Bool :=
  containsSub own.data s.data

/-- Python's `l.endswith(suf)` on character lists. -/
def listEndsWith (l suf : List Char) : Bool :=
  l.drop (l.length - suf.length) == suf

/-- Python's `s.endswith(suf)`. -/
def strEndsWith (s suf : String) : Bool :=
  listEndsWith s.data suf.data

/-- Python's `relative_path[:-4]`, as used to drop the `.log` extension. -/
def stripLog (s : String) : String :=
  ⟨s.data.take (s.data.length - 4)⟩

/-- Python's `s.split("/", 1)` on character lists: the part before the first
slash, and — when a slash occurs — everything after it. -/
def splitSlash : List Char → List Char × Option (List Char)
  | [] => ([], none)
  | c :: t => if c = '/' then ([], some t)
      else (c :: (splitSlash t).1, (splitSlash t).2)

/-- String-level `s.split("/", 1)`. -/
def splitSlashStr (s : String) : String × Option String :=
  (⟨(splitSlash s.data).1⟩, (splitSlash s.data).2.map (fun l => (⟨l⟩ : String)))

/-- The pod name derived from a `pod` or `pod/container` entry name. -/
def podOf (s : String) : String :=
  (splitSlashStr s).1

/-- Python's `"/" in s`. -/
def hasSlash (s : String) : Bool :=
  s.data.contains '/'

/-- One file below the archive root `LOG_DIR`: its path relative to the root,
its size in bytes (`st_size`), its creation time (`st_ctime`, seconds), and its
text content as a list of lines (newlines removed). -/
structure LogFile where
  path : String
  size : Nat
  ctime : ℚ
  content : List String
deriving DecidableEq

/-- One pod as returned by `list_namespaced_pod`: its name, the names of its
regular containers (`pod.spec.containers`) and of its init containers
(`pod.spec.init_containers`, `[]` when absent). -/
structure PodSpec where
  name : String
  containers : List String
  initContainers : List String
deriving DecidableEq

/-- A Kubernetes `ApiException` as the code observes it. -/
structure ApiErr where
  status : Nat
  reason : String
deriving DecidableEq

/-- The pod/container display names built from one running pod (main.py,
`get_archived_pods` lines 516-530): each init container as `pod/init-name`;
then the bare pod name when the pod has exactly one regular container and no
init container, otherwise each regular container as `pod/container`. -/
def runningNames (p : PodSpec) : List String :=
  p.initContainers.map (fun c => p.name ++ "/init-" ++ c) ++
    (if p.containers.length == 1 && p.initContainers.isEmpty then [p.name]
     else p.containers.map (fun c => p.name ++ "/" ++ c))

/-- The set `running_pod_containers` (main.py lines 512-535): built from the
pod list on success; on an `ApiException` the code logs a warning and continues
with the empty set. -/
def runningSet : Except ApiErr (List PodSpec) → List String
  | Except.ok pods => (pods.map runningNames).flatten
  | Except.error _ => []

/-- The `os.walk` pass of `get_archived_pods` (main.py lines 539-546): every
file under the archive root whose name ends in `.log`, listed as its relative
path with the `.log` extension removed. -/
def walkLogNames (store : List LogFile) : List String :=
  (store.filter (fun f => strEndsWith f.path ".log")).map (fun f => stripLog f.path)

/-- The `/api/archived_pods` listing (main.py, `get_archived_pods`,
lines 508-558) with archiving enabled and the archive root present: walk the
store for `.log` files and keep the names in which the viewer's own pod name
`KUBE_POD_NAME` does not occur as a substring (Python `KUBE_POD_NAME not in
pod_container`) and which are not in the running set.  `podList` is the result
of the `list_namespaced_pod` call. -/
def get_archived_pods (store : List LogFile) (ownPod : String)
    (podList : Except ApiErr (List PodSpec)) : List String :=
  (walkLogNames store).filter
    (fun pc => !(strContains ownPod pc) && !((runningSet podList).contains pc))

theorem listEndsWith_iff {l suf : List Char} :
    listEndsWith l suf = true ↔ ∃ t, l = t ++ suf := by
  constructor
  · intro h
    refine ⟨l.take (l.length - suf.length), ?_⟩
    have hd : l.drop (l.length - suf.length) = suf := by
      simpa [listEndsWith] using h
    conv_lhs => rw [← List.take_append_drop (l.length - suf.length) l]
    rw [hd]
  · rintro ⟨t, rfl⟩
    simp [listEndsWith]

theorem strEndsWith_log_iff {s : String} :
    strEndsWith s ".log" = true ↔ ∃ t, s.data = t ++ ".log".data := by
  simpa [strEndsWith] using (@listEndsWith_iff s.data ".log".data)

theorem stripLog_data_append (t : List Char) :
    stripLog ⟨t ++ ".log".data⟩ = ⟨t⟩ := by
  have h4 : ".log".data.length = 4 := rfl
  simp only [stripLog, List.length_append, h4, Nat.add_sub_cancel]
  exact congrArg String.mk (List.take_left t ".log".data)

theorem string_append_mk (s t : String) : s ++ t = ⟨s.data ++ t.data⟩ := by
  cases s; cases t; rfl

theorem stripLog_concat (pc : String) : stripLog (pc ++ ".log") = pc := by
  calc stripLog (pc ++ ".log") = stripLog ⟨pc.data ++ ".log".data⟩ := by
        rw [string_append_mk]
    _ = ⟨pc.data⟩ := stripLog_data_append pc.data
    _ = pc := rfl

theorem strEndsWith_concat (pc : String) : strEndsWith (pc ++ ".log") ".log" = true := by
  rw [strEndsWith_log_iff]
  exact ⟨pc.data, String.data_append ..⟩

theorem stripLog_append_log {s : String} (h : strEndsWith s ".log" = true) :
    stripLog s ++ ".log" = s := by
  obtain ⟨t, ht⟩ := strEndsWith_log_iff.1 h
  have hs : s = (⟨t⟩ : String) ++ ".log" := by
    cases s with
    | mk d =>
      have : d = t ++ ".log".data := ht
      simp only [this]
      rfl
  rw [hs, stripLog_concat]

theorem mem_walkLogNames {store : List LogFile} {pc : String} :
    pc ∈ walkLogNames store ↔ ∃ f ∈ store, f.path = pc ++ ".log" := by
  constructor
  · intro h
    simp only [walkLogNames, List.mem_map, List.mem_filter] at h
    obtain ⟨f, ⟨hf, hlog⟩, hpc⟩ := h
    exact ⟨f, hf, by rw [← hpc, stripLog_append_log hlog]⟩
  · rintro ⟨f, hf, hpath⟩
    simp only [walkLogNames, List.mem_map, List.mem_filter]
    refine ⟨f, ⟨hf, ?_⟩, ?_⟩
    · rw [hpath]; exact strEndsWith_concat pc
    · rw [hpath, stripLog_concat]

/-- C4 counterexample: with the viewer's own pod name `viewer`, an archived
entry `my-viewer-2/app.log` of a different pod (its derived pod name is
`my-viewer-2`, not `viewer`) that is not running is nevertheless dropped from
the listing, because the code tests substring containment rather than equality
of the derived pod name. -/
theorem get_archived_pods_c4_cex :
    podOf "my-viewer-2/app" ≠ "viewer"
    ∧ "my-viewer-2/app" ∉ runningSet (Except.ok [])
    ∧ (⟨"my-viewer-2/app.log", 0, 0, []⟩ : LogFile).path = "my-viewer-2/app" ++ ".log"
    ∧ "my-viewer-2/app" ∉
        get_archived_pods [⟨"my-viewer-2/app.log", 0, 0, []⟩] "viewer" (Except.ok []) :=
  ⟨by decide, by decide, by decide, by decide⟩

/-- C4 (amended): a name appears in the archived-entries listing exactly when
the store holds a file at that name plus the `.log` extension, the viewer's
own pod name does not occur in the name as a substring (not merely: is not
equal to its derived pod name), and the name is not among the running
pod/container names. -/
theorem get_archived_pods_members (store : List LogFile) (own : String)
    (pods : List PodSpec) (pc : String) :
    pc ∈ get_archived_pods store own (Except.ok pods) ↔
      (∃ f ∈ store, f.path = pc ++ ".log")
      ∧ strContains own pc = false
      ∧ pc ∉ runningSet (Except.ok pods) := by
  simp [get_archived_pods, List.mem_filter, mem_walkLogNames, and_assoc]

/-- C9: the archived-entries listing omits every name in which the viewer's
own pod name occurs as a substring, whatever the store and the running-pod
query result are. -/
theorem get_archived_pods_excludes_substr (store : List LogFile) (own : String)
    (podList : Except ApiErr (List PodSpec)) (pc : String)
    (h : strContains own pc = true) :
    pc ∉ get_archived_pods store own podList := by
  intro hmem
  simp only [get_archived_pods, List.mem_filter, Bool.and_eq_true, Bool.not_eq_true'] at hmem
  rw [h] at hmem
  exact absurd hmem.2.1 (by simp)

theorem get_archived_pods_excludes_substr_witness :
    strContains "viewer" "my-viewer-2/app" = true
    ∧ "my-viewer-2/app" ∉
        get_archived_pods [⟨"other-pod/app.log", 0, 0, []⟩] "viewer" (Except.ok []) :=
  ⟨by decide,
    get_archived_pods_excludes_substr [⟨"other-pod/app.log", 0, 0, []⟩] "viewer"
      (Except.ok []) "my-viewer-2/app" (by decide)⟩

/-- C10: when the `list_namespaced_pod` call fails with an API error, the
listing still succeeds, behaving exactly as if the running set were empty: it
returns every `.log` entry of the store except the self-matching ones,
including entries whose containers are in fact running. -/
theorem get_archived_pods_api_error (store : List LogFile) (own : String) (e : ApiErr) :
    get_archived_pods store own (Except.error e)
        = get_archived_pods store own (Except.ok [])
    ∧ get_archived_pods store own (Except.error e)
        = (walkLogNames store).filter (fun pc => !(strContains own pc)) := by
  constructor
  · rfl
  · simp [get_archived_pods, runningSet]

/-- Modelled from the spec: `purge_previous_pod_logs` lives in the
`log_archiver` module, which is not among the sources.  Per the spec's
Retention Manager (on-demand purge), it deletes every archived entry in the
store immediately and returns `(deleted_count, error_count, remaining store)`;
a deletion failure on an individual entry is counted and the entry remains.
`failing` says which paths fail to delete. -/
def purge_previous_pod_logs (store : List LogFile) (failing : String → Bool) :
    Nat × Nat × List LogFile :=
  let targets := store.filter (fun f => strEndsWith f.path ".log")
  ((targets.filter (fun f => !(failing f.path))).length,
   (targets.filter (fun f => failing f.path)).length,
   store.filter (fun f => !(strEndsWith f.path ".log") || failing f.path))

/-- Result of the `/api/purgePreviousLogs` endpoint. -/
inductive PurgeOutcome where
  | rejected (status : Nat) (msg : String)
  | ok (deleted errors : Nat)
deriving DecidableEq

/-- The `/api/purgePreviousLogs` endpoint (main.py, `purge_previous_logs`,
lines 749-779): when `RETAIN_ALL_POD_LOGS` is false it answers 403 without
touching the store; when `ALLOW_PREVIOUS_LOG_PURGE` is false it answers 403
without touching the store; otherwise it runs the purge and reports the
counts.  Returns the response together with the store after the call. -/
def purge_previous_logs_endpoint (retain allow : Bool) (store : List LogFile)
    (failing : String → Bool) : PurgeOutcome × List LogFile :=
  if retain = false then
    (PurgeOutcome.rejected 403 "Previous pod logs are not enabled.", store)
  else if allow = false then
    (PurgeOutcome.rejected 403 "Previous log purging is not allowed.", store)
  else
    (PurgeOutcome.ok (purge_previous_pod_logs store failing).1
        (purge_previous_pod_logs store failing).2.1,
     (purge_previous_pod_logs store failing).2.2)

/-- C2: invoking the purge endpoint with archiving disabled or the purge flag
off yields a rejected (403) response, leaves the store untouched, and hence
leaves the archived-entries listing unchanged. -/
theorem purge_rejected_when_disallowed (retain allow : Bool) (store : List LogFile)
    (failing : String → Bool) (own : String) (podList : Except ApiErr (List PodSpec))
    (h : retain = false ∨ allow = false) :
    (∃ s m, (purge_previous_logs_endpoint retain allow store failing).1
        = PurgeOutcome.rejected s m)
    ∧ (purge_previous_logs_endpoint retain allow store failing).2 = store
    ∧ get_archived_pods (purge_previous_logs_endpoint retain allow store failing).2
        own podList = get_archived_pods store own podList := by
  rcases h with h | h
  · subst h
    exact ⟨⟨403, "Previous pod logs are not enabled.", rfl⟩, rfl, rfl⟩
  · subst h
    cases retain with
    | false => exact ⟨⟨403, "Previous pod logs are not enabled.", rfl⟩, rfl, rfl⟩
    | true => exact ⟨⟨403, "Previous log purging is not allowed.", rfl⟩, rfl, rfl⟩

theorem purge_rejected_when_disallowed_witness :
    (∃ s m, (purge_previous_logs_endpoint true false [⟨"a.log", 1, 0, []⟩]
        (fun _ => false)).1 = PurgeOutcome.rejected s m)
    ∧ (purge_previous_logs_endpoint true false [⟨"a.log", 1, 0, []⟩]
        (fun _ => false)).2 = [⟨"a.log", 1, 0, []⟩]
    ∧ get_archived_pods (purge_previous_logs_endpoint true false [⟨"a.log", 1, 0, []⟩]
          (fun _ => false)).2 "me" (Except.ok [])
        = get_archived_pods [⟨"a.log", 1, 0, []⟩] "me" (Except.ok []) :=
  purge_rejected_when_disallowed true false [⟨"a.log", 1, 0, []⟩]
    (fun _ => false) "me" (Except.ok []) (Or.inr rfl)

/-- C3: when the purge endpoint (with archiving and purging enabled) reports
success with `error_count = 0`, the archived-entries listing over the
resulting store is empty, whatever the running-pod query returns. -/
theorem purge_totality (store : List LogFile) (failing : String → Bool)
    (own : String) (podList : Except ApiErr (List PodSpec)) (d : Nat)
    (h : (purge_previous_logs_endpoint true true store failing).1 = PurgeOutcome.ok d 0) :
    get_archived_pods (purge_previous_logs_endpoint true true store failing).2
      own podList = [] := by
  have hres : (purge_previous_logs_endpoint true true store failing)
      = (PurgeOutcome.ok (purge_previous_pod_logs store failing).1
          (purge_previous_pod_logs store failing).2.1,
         (purge_previous_pod_logs store failing).2.2) := rfl
  rw [hres] at h ⊢
  have herr : ((store.filter (fun f => strEndsWith f.path ".log")).filter
      (fun f => failing f.path)).length = 0 := by
    simp only [Prod.mk.injEq, PurgeOutcome.ok.injEq] at h
    simpa [purge_previous_pod_logs] using h.2
  have hnone : ∀ f ∈ store, strEndsWith f.path ".log" = true → failing f.path = false := by
    intro f hf hlog
    have hnil := List.length_eq_zero.1 herr
    rw [List.filter_eq_nil_iff] at hnil
    have := hnil f (List.mem_filter.2 ⟨hf, hlog⟩)
    simpa using this
  have hfilter : ((purge_previous_pod_logs store failing).2.2).filter
      (fun f => strEndsWith f.path ".log") = [] := by
    rw [List.filter_eq_nil_iff]
    intro f hf
    simp only [purge_previous_pod_logs, List.mem_filter, Bool.or_eq_true,
      Bool.not_eq_true'] at hf
    obtain ⟨hmem, hcond⟩ := hf
    intro hlog
    rcases hcond with hcond | hcond
    · rw [hlog] at hcond; cases hcond
    · rw [hnone f hmem hlog] at hcond; cases hcond
  simp [get_archived_pods, walkLogNames, hfilter]

theorem purge_totality_witness :
    get_archived_pods (purge_previous_logs_endpoint true true [⟨"a.log", 1, 0, []⟩]
        (fun _ => false)).2 "me" (Except.ok []) = [] :=
  purge_totality [⟨"a.log", 1, 0, []⟩] (fun _ => false) "me" (Except.ok []) 1 rfl

/-- Response of `/api/logDirStats` (main.py, `get_log_dir_stats`): whether
archiving is enabled, the total size of the `.log` files in MiB (Python float
division modelled exactly over ℚ), the number of `.log` files, and the
creation time of the oldest `.log` file (`None` when there is none; the ISO
rendering of the timestamp is elided). -/
structure DirStats where
  enabled : Bool
  total_size_mibytes : ℚ
  file_count : Nat
  oldest_file_date : Option ℚ
deriving DecidableEq

/-- One iteration of the walk loop of `get_log_dir_stats` (main.py lines
694-707): files not ending in `.log` are skipped; otherwise the size is added,
the count incremented, and the oldest creation time updated. -/
def statsStep (acc : Nat × Nat × Option ℚ) (f : LogFile) : Nat × Nat × Option ℚ :=
  if strEndsWith f.path ".log" then
    (acc.1 + f.size, acc.2.1 + 1,
      match acc.2.2 with
      | none => some f.ctime
      | some d => if f.ctime < d then some f.ctime else some d)
  else acc

/-- The `/api/logDirStats` endpoint (main.py, `get_log_dir_stats`, lines
658-724): disabled reply when archiving is off, an empty reply when the log
directory does not exist, otherwise the accumulated walk statistics with the
total converted to MiB (`total_size / 1024 / 1024`). -/
def get_log_dir_stats (retain dirExists : Bool) (store : List LogFile) : DirStats :=
  if retain = false then ⟨false, 0, 0, none⟩
  else if dirExists = false then ⟨true, 0, 0, none⟩
  else
    ⟨true, ((store.foldl statsStep (0, 0, none)).1 : ℚ) / 1024 / 1024,
     (store.foldl statsStep (0, 0, none)).2.1,
     (store.foldl statsStep (0, 0, none)).2.2⟩

/-- The `.log` files of the store. -/
def logFiles (store : List LogFile) : List LogFile :=
  store.filter (fun f => strEndsWith f.path ".log")

/-- The oldest-date update of the stats loop, as a two-argument operation. -/
def optMin (o : Option ℚ) (t : ℚ) : Option ℚ :=
  match o with
  | none => some t
  | some d => if t < d then some t else some d

theorem optMin_some (d t : ℚ) : optMin (some d) t = some (min d t) := by
  rcases lt_or_le t d with h | h
  · simp [optMin, h, min_eq_right h.le]
  · simp [optMin, not_lt.2 h, min_eq_left h]

theorem foldl_optMin_some (l : List ℚ) : ∀ d : ℚ,
    l.foldl optMin (some d) = some (l.foldl min d) := by
  induction l with
  | nil => intro d; rfl
  | cons x xs ih => intro d; simp only [List.foldl_cons, optMin_some, ih]

theorem foldl_optMin_none (l : List ℚ) : l.foldl optMin none = l.min? := by
  cases l with
  | nil => rfl
  | cons x xs =>
    show (x :: xs).foldl optMin none = some (xs.foldl min x)
    simp only [List.foldl_cons]
    exact foldl_optMin_some xs x

theorem statsFold_eq (store : List LogFile) : ∀ (a b : Nat) (o : Option ℚ),
    store.foldl statsStep (a, b, o) =
      (a + ((logFiles store).map (fun f => f.size)).sum,
       b + (logFiles store).length,
       ((logFiles store).map (fun f => f.ctime)).foldl optMin o) := by
  induction store with
  | nil => intro a b o; simp [logFiles]
  | cons f t ih =>
    intro a b o
    by_cases h : strEndsWith f.path ".log" = true
    · have hstep : statsStep (a, b, o) f
          = (a + f.size, b + 1, optMin o f.ctime) := by
        simp [statsStep, h, optMin]
      simp only [List.foldl_cons, hstep, ih, logFiles, List.filter_cons, h, if_pos,
        List.map_cons, List.sum_cons, List.length_cons, List.foldl_cons]
      simp only [Prod.mk.injEq]
      exact ⟨by omega, by omega, trivial⟩
    · have hstep : statsStep (a, b, o) f = (a, b, o) := by
        simp [statsStep, h]
      have hb : strEndsWith f.path ".log" = false := by
        cases hc : strEndsWith f.path ".log" with
        | false => rfl
        | true => exact absurd hc h
      simp only [List.foldl_cons, hstep, ih, logFiles, List.filter_cons, hb]
      simp

/-- The total number of bytes of the `.log` files of the store. -/
def sumLogBytes (store : List LogFile) : Nat :=
  ((logFiles store).map (fun f => f.size)).sum

/-- C8 counterexample: the stats endpoint does not return the total size in
bytes — on a store holding a single `.log` file of one byte the byte sum is 1
while the endpoint reports `1 / 1024 / 1024` (MiB). -/
theorem get_log_dir_stats_bytes_cex :
    sumLogBytes [⟨"a.log", 1, 0, []⟩] = 1
    ∧ ¬ ((get_log_dir_stats true true [⟨"a.log", 1, 0, []⟩]).total_size_mibytes
        = (sumLogBytes [⟨"a.log", 1, 0, []⟩] : ℚ)) := by
  constructor
  · rfl
  · intro h
    have h1 : (get_log_dir_stats true true [⟨"a.log", 1, 0, []⟩]).total_size_mibytes
        = (1 : ℚ) / 1024 / 1024 := rfl
    have h2 : sumLogBytes [⟨"a.log", 1, 0, []⟩] = 1 := rfl
    rw [h1, h2] at h
    norm_num at h

/-- C8 (amended): with archiving enabled and the log directory present, the
stats endpoint reports the byte sum of all `.log` files under the root divided
by 1024 twice (MiB), the number of `.log` files, and the least creation time
among the `.log` files (`none` when there are none). -/
theorem get_log_dir_stats_spec (store : List LogFile) :
    get_log_dir_stats true true store =
      ⟨true, (sumLogBytes store : ℚ) / 1024 / 1024,
       (logFiles store).length,
       ((logFiles store).map (fun f => f.ctime)).min?⟩ := by
  have hfold := statsFold_eq store 0 0 none
  simp only [get_log_dir_stats, if_neg (by simp : ¬ (true = false)), hfold,
    Nat.zero_add, foldl_optMin_none, sumLogBytes]

/-- Modelled from the spec: the periodic retention sweep lives in the
`log_archiver` module (`start_log_cleanup_job`), which is not among the
sources.  Per the spec's Retention Manager, an entry is deleted exactly when
it is older than `max_age_minutes`, measured from its file creation time.
Times are rational numbers of seconds. -/
def sweepDeletes (now maxAgeMinutes : ℚ) (f : LogFile) : Bool :=
  decide (now - f.ctime > maxAgeMinutes * 60)

/-- Modelled from the spec: one pass of the periodic sweep over the store,
keeping exactly the entries not yet older than the threshold. -/
def retentionSweep (now maxAgeMinutes : ℚ) (store : List LogFile) : List LogFile :=
  store.filter (fun f => !(sweepDeletes now maxAgeMinutes f))

/-- C7: an entry created at time `T` survives a sweep with threshold `M`
minutes run at any time before `T + M` minutes, and is deleted by a sweep run
at any time after `T + M` minutes. -/
theorem retention_age_boundary (T M now : ℚ) (f : LogFile) (store : List LogFile)
    (hT : f.ctime = T) (hf : f ∈ store) :
    (now < T + M * 60 → f ∈ retentionSweep now M store)
    ∧ (now > T + M * 60 → f ∉ retentionSweep now M store) := by
  constructor
  · intro h
    simp only [retentionSweep, List.mem_filter, Bool.not_eq_true', sweepDeletes,
      decide_eq_false_iff_not, not_lt, hT]
    exact ⟨hf, by linarith⟩
  · intro h hmem
    simp only [retentionSweep, List.mem_filter, Bool.not_eq_true', sweepDeletes,
      decide_eq_false_iff_not, not_lt, hT] at hmem
    linarith [hmem.2]

theorem retention_age_boundary_witness :
    (⟨"p.log", 0, 0, []⟩ : LogFile) ∈ retentionSweep 30 1 [⟨"p.log", 0, 0, []⟩] :=
  (retention_age_boundary 0 1 30 ⟨"p.log", 0, 0, []⟩ [⟨"p.log", 0, 0, []⟩] rfl
      (List.mem_singleton.mpr rfl)).1 (by norm_num)

theorem splitSlash_append {pod : List Char} (c : List Char)
    (h : pod.contains '/' = false) :
    splitSlash (pod ++ '/' :: c) = (pod, some c) := by
  induction pod with
  | nil => simp [splitSlash]
  | cons x xs ih =>
    simp only [List.contains_cons, Bool.or_eq_false_iff] at h
    have hx : ¬ (x = '/') := by
      intro hx
      subst hx
      simp at h
    simp only [List.cons_append, splitSlash, if_neg hx]
    show (x :: (splitSlash (xs ++ '/' :: c)).1, (splitSlash (xs ++ '/' :: c)).2)
        = (x :: xs, some c)
    rw [ih h.2]

theorem splitSlashStr_concat (pod c : String) (h : hasSlash pod = false) :
    splitSlashStr (pod ++ "/" ++ c) = (pod, some c) := by
  have hd : (pod ++ "/" ++ c).data = pod.data ++ '/' :: c.data := by
    rw [String.data_append, String.data_append]
    simp
  have hsplit := @splitSlash_append pod.data c.data (by simpa [hasSlash] using h)
  simp only [splitSlashStr, hd, hsplit]
  rfl

/-- C5: enumeration round trip.  Every store file with the `.log` extension is
discovered by the walk under its relative path with the extension removed;
putting the extension back yields the file's path again; encoding a
`pod/container` identity as a path and decoding it at enumeration time is the
identity, and Python's `split("/", 1)` recovers the `(pod, container)` pair
whenever the pod name itself has no slash. -/
theorem archive_enumeration_round_trip (store : List LogFile) (f : LogFile)
    (hmem : f ∈ store) (hlog : strEndsWith f.path ".log" = true) :
    stripLog f.path ∈ walkLogNames store
    ∧ stripLog f.path ++ ".log" = f.path
    ∧ (∀ pod c : String, stripLog ((pod ++ "/" ++ c) ++ ".log") = pod ++ "/" ++ c
        ∧ (hasSlash pod = false → splitSlashStr (pod ++ "/" ++ c) = (pod, some c))) := by
  refine ⟨?_, stripLog_append_log hlog, ?_⟩
  · exact mem_walkLogNames.2 ⟨f, hmem, (stripLog_append_log hlog).symm⟩
  · intro pod c
    exact ⟨stripLog_concat (pod ++ "/" ++ c), fun h => splitSlashStr_concat pod c h⟩

theorem archive_enumeration_round_trip_witness :
    stripLog "job-42/worker-1.log" ∈ walkLogNames [⟨"job-42/worker-1.log", 0, 0, []⟩]
    ∧ stripLog "job-42/worker-1.log" ++ ".log" = "job-42/worker-1.log" :=
  ⟨(archive_enumeration_round_trip [⟨"job-42/worker-1.log", 0, 0, []⟩]
      ⟨"job-42/worker-1.log", 0, 0, []⟩ (List.mem_singleton.mpr rfl) (by decide)).1,
   (archive_enumeration_round_trip [⟨"job-42/worker-1.log", 0, 0, []⟩]
      ⟨"job-42/worker-1.log", 0, 0, []⟩ (List.mem_singleton.mpr rfl) (by decide)).2.1⟩

/-- Python's `s.strip()` on character lists (whitespace from both ends). -/
def stripChars (cs : List Char) : List Char :=
  ((cs.dropWhile isSpaceChar).reverse.dropWhile isSpaceChar).reverse

/-- Python's `s.strip()`. -/
def stripStr (s : String) : String :=
  ⟨stripChars s.data⟩

/-- Python's `s.lower()` (ASCII-faithful; exotic case mappings elided). -/
def lowerStr (s : String) : String :=
  ⟨s.data.map Char.toLower⟩

/-- Consume exactly `n` decimal digits, or fail. -/
def expectDigits : Nat → List Char → Option (List Char)
  | 0, cs => some cs
  | _ + 1, [] => none
  | n + 1, c :: cs => if c.isDigit then expectDigits n cs else none

/-- Consume exactly the character `a`, or fail. -/
def expectChar (a : Char) : List Char → Option (List Char)
  | [] => none
  | c :: cs => if c == a then some cs else none

/-- Greedily consume up to `n` leading decimal digits. -/
def takeDigits : Nat → List Char → List Char × List Char
  | 0, cs => ([], cs)
  | _ + 1, [] => ([], [])
  | n + 1, c :: cs =>
    if c.isDigit then
      (c :: (takeDigits n cs).1, (takeDigits n cs).2)
    else ([], c :: cs)

/-- The `(\.\d{1,9})?Z` tail of the timestamp pattern of `parse_log_line`
(main.py line 180): an optional dot with one to nine fractional digits, then a
literal `Z`.  Greedy matching with no net backtracking is equivalent here
since a digit can never stand where the `Z` must. -/
def afterFrac : List Char → Option (List Char)
  | '.' :: rest =>
      if (takeDigits 9 rest).1.isEmpty then none
      else expectChar 'Z' (takeDigits 9 rest).2
  | cs => expectChar 'Z' cs

/-- The `\d{4}-\d{2}-\d{2}T\d{2}:\d{2}:\d{2}(\.\d{1,9})?Z` timestamp pattern
of `parse_log_line` (main.py line 180), anchored at the start (`re.match`);
returns what follows the `Z`. -/
def afterTimestamp (cs : List Char) : Option (List Char) :=
  (((((((((((expectDigits 4 cs).bind (expectChar '-')).bind
    (expectDigits 2)).bind (expectChar '-')).bind
    (expectDigits 2)).bind (expectChar 'T')).bind
    (expectDigits 2)).bind (expectChar ':')).bind
    (expectDigits 2)).bind (expectChar ':')).bind
    (expectDigits 2)).bind afterFrac

/-- The whole match of `parse_log_line`'s regular expression: the timestamp,
one whitespace character (`\s`), then the rest of the line (`(.*)`).  Returns
the timestamp characters and the message characters. -/
def splitTimestampMsg (cs : List Char) : Option (List Char × List Char) :=
  match afterTimestamp cs with
  | none => none
  | some rest =>
    match rest with
    | [] => none
    | c :: msg =>
      if isSpaceChar c then some (cs.take (cs.length - rest.length), msg) else none

/-- One parsed log line as the endpoints return it: an optional RFC3339Nano
timestamp, the message, and the optional pod/container attribution added by
the archived-logs endpoint (`none` models an absent key). -/
structure LogEntry where
  timestamp : Option String
  message : String
  pod_name : Option String
  container_name : Option String
deriving DecidableEq

/-- `parse_log_line` (main.py lines 170-187): split off a leading
RFC3339Nano timestamp when present, stripping the message; otherwise no
timestamp and the stripped whole line as the message. -/
def parse_log_line (line : String) : LogEntry :=
  match splitTimestampMsg line.data with
  | some (ts, msg) => ⟨some ⟨ts⟩, ⟨stripChars msg⟩, none, none⟩
  | none => ⟨none, stripStr line, none, none⟩

/-- The pod/container attribution of `get_archived_logs` (main.py lines
624-631): names containing a slash are split once into pod and container,
bare names set only the pod. -/
def addPodContainer (e : LogEntry) (podName : String) : LogEntry :=
  if hasSlash podName then
    { e with pod_name := some (splitSlashStr podName).1,
             container_name := (splitSlashStr podName).2 }
  else { e with pod_name := some podName }

/-- Code-point lexicographic string order, Python's string `<=` used by the
sort key comparison. -/
def lexLe : List Char → List Char → Bool
  | [], _ => true
  | _ :: _, [] => false
  | a :: as, b :: bs =>
    if a.toNat < b.toNat then true
    else if b.toNat < a.toNat then false
    else lexLe as bs

/-- The sort key of the log endpoints: the timestamp, with missing timestamps
replaced by `"0000-00-00T00:00:00Z"`. -/
def tsKey (e : LogEntry) : List Char :=
  (e.timestamp.getD "0000-00-00T00:00:00Z").data

/-- The stable timestamp sort of the log endpoints (Python `list.sort` with
`reverse=(sort_order == "desc")`; ties keep their original order). -/
def sortLogs (sortOrder : String) (l : List LogEntry) : List LogEntry :=
  if sortOrder == "desc" then l.mergeSort (fun a b => lexLe (tsKey b) (tsKey a))
  else l.mergeSort (fun a b => lexLe (tsKey a) (tsKey b))

/-- The tail-lines slicing of the log endpoints: with a positive limit, keep
the first `n` lines in descending order and the last `n` in ascending order. -/
def applyTail (sortOrder : String) (tail : Option Int) (l : List LogEntry) : List LogEntry :=
  match tail with
  | none => l
  | some n =>
    if 0 < n then
      if sortOrder == "desc" then l.take n.toNat
      else l.drop (l.length - n.toNat)
    else l

/-- The line-processing pipeline of `get_archived_logs` (main.py lines
607-648) on the file's lines: skip blank lines, parse each line, apply the
search filter (case-insensitive unless requested otherwise), attribute
pod/container, sort by timestamp and slice. -/
def processArchivedLines (lines : List String) (podName sortOrder : String)
    (tail : Option Int) (searchString : String) (caseSensitive : Bool) : List LogEntry :=
  applyTail sortOrder tail (sortLogs sortOrder (lines.filterMap (fun line =>
    if (stripChars line.data).isEmpty then none
    else
      let e := parse_log_line line
      if searchString != "" &&
          !(containsSub (if caseSensitive then searchString else lowerStr searchString).data
              (if caseSensitive then e.message else lowerStr e.message).data) then none
      else some (addPodContainer e podName))))

/-- Result of the `/api/archived_logs` endpoint. -/
inductive ArchivedLogsResult where
  | notEnabled
  | badRequest (msg : String)
  | notFound
  | ok (logs : List LogEntry)
deriving DecidableEq

/-- The `/api/archived_logs` endpoint (main.py, `get_archived_logs`, lines
561-655): 403 when archiving is disabled; 400 when no pod name was supplied;
404 when no file exists at `LOG_DIR/<name>.log`; 400 when the tail-lines
parameter is negative; otherwise the processed content of that file.
`tailParam` stands for the already-parsed integer query parameter
(`"0"` maps to 0, meaning no limit). -/
def get_archived_logs (retain : Bool) (store : List LogFile) (podName sortOrder : String)
    (tailParam : Int) (searchString : String) (caseSensitive : Bool) : ArchivedLogsResult :=
  if retain = false then ArchivedLogsResult.notEnabled
  else if podName == "" then
    ArchivedLogsResult.badRequest "Pod name is required for archived logs"
  else
    match store.find? (fun f => f.path == podName ++ ".log") with
    | none => ArchivedLogsResult.notFound
    | some f =>
      if tailParam ≠ 0 ∧ tailParam < 0 then
        ArchivedLogsResult.badRequest "tail_lines must be non-negative or 0."
      else
        ArchivedLogsResult.ok (processArchivedLines f.content podName sortOrder
          (if tailParam == 0 then none else some tailParam) searchString caseSensitive)

/-- C6: with archiving enabled, a supplied (non-empty) pod/container name and
the default query parameters, the archived-log read returns 404 exactly when
the store holds no file at the name plus the `.log` extension; when the file
is present it returns that file's parsed content.  Store paths are distinct,
as on a filesystem. -/
theorem get_archived_logs_notFound_iff (store : List LogFile) (name : String)
    (hname : name ≠ "") (hnd : (store.map (fun f => f.path)).Nodup) :
    (get_archived_logs true store name "desc" 0 "" false = ArchivedLogsResult.notFound
      ↔ ∀ f ∈ store, f.path ≠ name ++ ".log")
    ∧ (∀ f ∈ store, f.path = name ++ ".log" →
        get_archived_logs true store name "desc" 0 "" false
          = ArchivedLogsResult.ok (processArchivedLines f.content name "desc" none "" false)) := by
  have hne : (name == "") = false := by
    cases hb : name == "" with
    | false => rfl
    | true => exact absurd (by simpa using hb) hname
  cases hfind : store.find? (fun f => f.path == name ++ ".log") with
  | none =>
    have hres : get_archived_logs true store name "desc" 0 "" false
        = ArchivedLogsResult.notFound := by
      simp only [get_archived_logs, hne, hfind]
      norm_num
    have hnone : ∀ f ∈ store, f.path ≠ name ++ ".log" := by
      rw [List.find?_eq_none] at hfind
      intro f hf
      simpa using hfind f hf
    exact ⟨by rw [hres]; exact ⟨fun _ => hnone, fun _ => rfl⟩,
           fun f hf hpath => absurd hpath (hnone f hf)⟩
  | some g =>
    have hg : g.path = name ++ ".log" := by simpa using List.find?_some hfind
    have hgmem : g ∈ store := List.mem_of_find?_eq_some hfind
    have hres : get_archived_logs true store name "desc" 0 "" false
        = ArchivedLogsResult.ok (processArchivedLines g.content name "desc" none "" false) := by
      simp only [get_archived_logs, hne, hfind]
      norm_num
    refine ⟨?_, ?_⟩
    · rw [hres]
      exact ⟨(fun h => by cases h), fun hall => absurd hg (hall g hgmem)⟩
    · intro f hf hpath
      have hfg : f = g :=
        List.inj_on_of_nodup_map hnd hf hgmem (by rw [hpath, hg])
      rw [hfg]
      exact hres

theorem get_archived_logs_notFound_iff_witness :
    get_archived_logs true [⟨"a.log", 1, 0, []⟩] "b" "desc" 0 "" false
      = ArchivedLogsResult.notFound :=
  ((get_archived_logs_notFound_iff [⟨"a.log", 1, 0, []⟩] "b" (by decide)
      (by decide)).1).mpr (by decide)

/-- One container of a pod, as the watcher identifies it: the container name
together with whether it is an init container. -/
structure ContainerRef where
  name : String
  isInit : Bool
deriving DecidableEq

/-- The identity the watcher de-duplicates on: the pod generation's unique
identity (pod UID) together with the container reference. -/
abbrev CaptureKey := String × ContainerRef

/-- One `MODIFIED` or `DELETED` watch event as the watcher consumes it: the
pod generation's unique identity, the container refs observed in terminated
state in the event's pod snapshot (for a deletion, every container not yet
captured, since deletion is terminal for all of them), and whether the event
is the pod's `DELETED` event. -/
structure PodEvent where
  uid : String
  terminated : List ContainerRef
  deleted : Bool
deriving DecidableEq

/-- Modelled from the spec: the watcher (`watch_pods_and_archive` in the
`log_archiver` module) is not among the sources.  Per the spec's Lifecycle
Watcher, a terminated container is handed to the Capturer only when its key is
not yet in the tracking set, and is recorded there at that moment.  The
accumulator is the tracking set together with the capture invocations
emitted so far. -/
def captureStep (uid : String) (acc : List CaptureKey × List CaptureKey)
    (r : ContainerRef) : List CaptureKey × List CaptureKey :=
  if (uid, r) ∈ acc.1 then acc
  else ((uid, r) :: acc.1, acc.2 ++ [(uid, r)])

/-- Modelled from the spec: after a pod's `DELETED` event is handled, the
pod's tracking entry is discarded — every tracked key of that generation is
dropped from the tracking set. -/
def discardIfDeleted (e : PodEvent) (st : List CaptureKey) : List CaptureKey :=
  if e.deleted then st.filter (fun x => x.1 != e.uid) else st

/-- Modelled from the spec: processing one watch event — each terminated
container of the snapshot goes through the de-duplication gate in turn, and,
per the spec's Lifecycle Watcher, on a pod `DELETED` event the final captures
for the not-yet-captured containers happen before the pod's tracking entry is
discarded.  Returns the new tracking set and the captures invoked for this
event. -/
def processEvent (captured : List CaptureKey) (e : PodEvent) :
    List CaptureKey × List CaptureKey :=
  (discardIfDeleted e (e.terminated.foldl (captureStep e.uid) (captured, [])).1,
   (e.terminated.foldl (captureStep e.uid) (captured, [])).2)

/-- Modelled from the spec: one event-loop step over the accumulated capture
log. -/
def eventStep (acc : List CaptureKey × List CaptureKey) (e : PodEvent) :
    List CaptureKey × List CaptureKey :=
  ((processEvent acc.1 e).1, acc.2 ++ (processEvent acc.1 e).2)

/-- Modelled from the spec: the watcher's whole run over a sequence of
lifecycle events, starting from a tracking set (the empty set at startup).
Returns the final tracking set and every capture invocation in order. -/
def processEvents (captured : List CaptureKey) (es : List PodEvent) :
    List CaptureKey × List CaptureKey :=
  es.foldl eventStep (captured, [])

/-- No event of pod generation `u` is delivered after `u`'s `DELETED` event:
the condition under which the discard of `u`'s tracking entry cannot be
followed by a redelivery that would re-capture. -/
def noUidAfterDelete (u : String) : List PodEvent → Bool
  | [] => true
  | e :: es =>
    (!(e.deleted && e.uid == u) || es.all (fun e2 => e2.uid != u))
      && noUidAfterDelete u es

theorem captureFold_inv (uid : String) (k : CaptureKey) :
    ∀ (rs : List ContainerRef) (st out : List CaptureKey),
      List.count k out ≤ 1 → (k ∈ out → k ∈ st) →
      st ⊆ (rs.foldl (captureStep uid) (st, out)).1
      ∧ List.count k (rs.foldl (captureStep uid) (st, out)).2 ≤ 1
      ∧ (k ∈ (rs.foldl (captureStep uid) (st, out)).2 →
          k ∈ (rs.foldl (captureStep uid) (st, out)).1)
      ∧ (k ∈ st →
          List.count k (rs.foldl (captureStep uid) (st, out)).2 = List.count k out) := by
  intro rs
  induction rs with
  | nil =>
    intro st out h1 h2
    exact ⟨fun x hx => hx, h1, h2, fun _ => rfl⟩
  | cons r rs ih =>
    intro st out h1 h2
    by_cases hmem : (uid, r) ∈ st
    · have hstep : captureStep uid (st, out) r = (st, out) := by
        simp [captureStep, hmem]
      simp only [List.foldl_cons, hstep]
      exact ih st out h1 h2
    · have hstep : captureStep uid (st, out) r
          = ((uid, r) :: st, out ++ [(uid, r)]) := by
        simp [captureStep, hmem]
      simp only [List.foldl_cons, hstep]
      by_cases hk : k = (uid, r)
      · have hkout : k ∉ out := fun hko => hmem (hk ▸ h2 hko)
        have hc0 : List.count k out = 0 := List.count_eq_zero.2 hkout
        have hc1 : List.count k [(uid, r)] = 1 := by
          rw [hk]
          simp
        have h1h : List.count k (out ++ [(uid, r)]) ≤ 1 := by
          rw [List.count_append, hc0, hc1]
        have h2h : k ∈ out ++ [(uid, r)] → k ∈ (uid, r) :: st := fun _ => by
          rw [hk]
          exact List.mem_cons_self _ _
        obtain ⟨s1, c1, m1, e1⟩ := ih ((uid, r) :: st) (out ++ [(uid, r)]) h1h h2h
        exact ⟨fun x hx => s1 (List.mem_cons_of_mem _ hx), c1, m1,
               fun hkst => absurd (hk ▸ hkst) hmem⟩
      · have hc1 : List.count k [(uid, r)] = 0 :=
          List.count_eq_zero.2 (fun hx => hk (List.mem_singleton.1 hx))
        have h1h : List.count k (out ++ [(uid, r)]) ≤ 1 := by
          rw [List.count_append, hc1]
          omega
        have h2h : k ∈ out ++ [(uid, r)] → k ∈ (uid, r) :: st := by
          intro hko
          rcases List.mem_append.1 hko with hko | hko
          · exact List.mem_cons_of_mem _ (h2 hko)
          · exact absurd (List.mem_singleton.1 hko) hk
        obtain ⟨s1, c1, m1, e1⟩ := ih ((uid, r) :: st) (out ++ [(uid, r)]) h1h h2h
        refine ⟨fun x hx => s1 (List.mem_cons_of_mem _ hx), c1, m1, ?_⟩
        intro hkst
        rw [e1 (List.mem_cons_of_mem _ hkst), List.count_append, hc1]
        omega

theorem captureFold_out_uid (uid : String) :
    ∀ (rs : List ContainerRef) (st out : List CaptureKey),
      (∀ x ∈ out, x.1 = uid) →
      ∀ x ∈ (rs.foldl (captureStep uid) (st, out)).2, x.1 = uid := by
  intro rs
  induction rs with
  | nil =>
    intro st out h
    simpa using h
  | cons r rs ih =>
    intro st out h
    by_cases hmem : (uid, r) ∈ st
    · have hstep : captureStep uid (st, out) r = (st, out) := by
        simp [captureStep, hmem]
      simp only [List.foldl_cons, hstep]
      exact ih st out h
    · have hstep : captureStep uid (st, out) r
          = ((uid, r) :: st, out ++ [(uid, r)]) := by
        simp [captureStep, hmem]
      simp only [List.foldl_cons, hstep]
      apply ih
      intro x hx
      rcases List.mem_append.1 hx with hx | hx
      · exact h x hx
      · rw [List.mem_singleton.1 hx]

theorem eventsFold_atMostOnce (k : CaptureKey) :
    ∀ (es : List PodEvent) (st out : List CaptureKey),
      noUidAfterDelete k.1 es = true →
      List.count k out ≤ 1 →
      (0 < List.count k out →
        k ∈ st ∨ es.all (fun e => e.uid != k.1) = true) →
      List.count k (es.foldl eventStep (st, out)).2 ≤ 1 := by
  intro es
  induction es with
  | nil =>
    intro st out _ h1 _
    simpa using h1
  | cons e es ih =>
    intro st out hno h1 h2
    have hno1 : ((!(e.deleted && e.uid == k.1))
          || es.all (fun e2 => e2.uid != k.1)) = true
        ∧ noUidAfterDelete k.1 es = true := by
      simpa [noUidAfterDelete, Bool.and_eq_true] using hno
    have hdd : e.deleted = true → e.uid = k.1 →
        es.all (fun e2 => e2.uid != k.1) = true := by
      intro hdel huid
      have h1b := hno1.1
      rw [hdel, huid] at h1b
      simpa using h1b
    obtain ⟨hsub, hcnt, hmemo, hcond⟩ :=
      captureFold_inv e.uid k e.terminated st [] (by simp) (by simp)
    have houid : ∀ x ∈ (e.terminated.foldl (captureStep e.uid) (st, [])).2,
        x.1 = e.uid :=
      captureFold_out_uid e.uid e.terminated st [] (by simp)
    have hkeep : k ∈ (e.terminated.foldl (captureStep e.uid) (st, [])).1 →
        k ∈ (processEvent st e).1 ∨ es.all (fun e2 => e2.uid != k.1) = true := by
      intro hk1
      by_cases hdel : e.deleted = true
      · by_cases huid : e.uid = k.1
        · exact Or.inr (hdd hdel huid)
        · refine Or.inl ?_
          simp only [processEvent, discardIfDeleted, hdel, if_pos]
          exact List.mem_filter.2 ⟨hk1, by
            simp only [bne_iff_ne, ne_eq]
            exact fun hx => huid hx.symm⟩
      · refine Or.inl ?_
        simp only [processEvent, discardIfDeleted, hdel]
        simpa using hk1
    simp only [List.foldl_cons, eventStep]
    by_cases hst : k ∈ st
    · have hc0 : List.count k (e.terminated.foldl (captureStep e.uid) (st, [])).2 = 0 := by
        rw [hcond hst]
        rfl
      apply ih (processEvent st e).1 (out ++ (processEvent st e).2) hno1.2
      · simp only [processEvent]
        rw [List.count_append, hc0]
        omega
      · intro hpos
        simp only [processEvent] at hpos
        rw [List.count_append, hc0] at hpos
        exact hkeep (hsub hst)
    · by_cases hout : 0 < List.count k out
      · rcases h2 hout with hst2 | hall
        · exact absurd hst2 hst
        · have hhead : (e.uid != k.1) = true := by
            have := List.all_eq_true.1 hall e (List.mem_cons_self e es)
            exact this
          have hc0 : List.count k (e.terminated.foldl (captureStep e.uid) (st, [])).2 = 0 := by
            rw [List.count_eq_zero]
            intro hk2
            have := houid k hk2
            rw [this] at hhead
            simp at hhead
          have hrest : es.all (fun e2 => e2.uid != k.1) = true := by
            rw [List.all_eq_true] at hall ⊢
            exact fun e2 he2 => hall e2 (List.mem_cons_of_mem e he2)
          apply ih (processEvent st e).1 (out ++ (processEvent st e).2) hno1.2
          · simp only [processEvent]
            rw [List.count_append, hc0]
            omega
          · intro _
            exact Or.inr hrest
      · have hc00 : List.count k out = 0 := by omega
        apply ih (processEvent st e).1 (out ++ (processEvent st e).2) hno1.2
        · simp only [processEvent]
          rw [List.count_append, hc00]
          omega
        · intro hpos
          simp only [processEvent] at hpos
          rw [List.count_append, hc00] at hpos
          have hkin : k ∈ (e.terminated.foldl (captureStep e.uid) (st, [])).2 :=
            List.count_pos_iff.1 (by simpa using hpos)
          exact hkeep (hmemo hkin)

/-- C1 counterexample: when a pod generation's `DELETED` event is redelivered
after the generation's tracking entry was discarded, the Capturer is invoked
twice for the same (pod generation, container) key, so the claimed
at-most-once bound fails on this event sequence. -/
theorem watcher_redelivered_delete_cex :
    List.count (("uid-1", ⟨"worker", false⟩) : CaptureKey)
      (processEvents [] [⟨"uid-1", [⟨"worker", false⟩], true⟩,
        ⟨"uid-1", [⟨"worker", false⟩], true⟩]).2 = 2
    ∧ ¬ (List.count (("uid-1", ⟨"worker", false⟩) : CaptureKey)
        (processEvents [] [⟨"uid-1", [⟨"worker", false⟩], true⟩,
          ⟨"uid-1", [⟨"worker", false⟩], true⟩]).2 ≤ 1) :=
  ⟨by decide, by decide⟩

/-- C1 (amended): over any sequence of lifecycle events in which no event of a
pod generation is delivered after that generation's `DELETED` event — the
tracking entry is discarded at deletion, so a `DELETED` redelivered after the
discard would re-invoke the Capturer — the watcher started from an empty
tracking set invokes the Capturer at most once per (pod generation, container)
key.  Duplicate `MODIFIED` events and a `DELETED` duplicating earlier
`MODIFIED` events remain de-duplicated. -/
theorem watcher_at_most_once_no_redelivery (es : List PodEvent) (k : CaptureKey)
    (h : noUidAfterDelete k.1 es = true) :
    List.count k (processEvents [] es).2 ≤ 1 :=
  eventsFold_atMostOnce k es [] [] h (by simp) (by simp)

theorem watcher_at_most_once_no_redelivery_witness :
    noUidAfterDelete "u" [⟨"u", [⟨"worker", false⟩], false⟩,
        ⟨"u", [⟨"worker", false⟩], true⟩] = true
    ∧ List.count (("u", ⟨"worker", false⟩) : CaptureKey)
        (processEvents [] [⟨"u", [⟨"worker", false⟩], false⟩,
          ⟨"u", [⟨"worker", false⟩], true⟩]).2 ≤ 1 :=
  ⟨by decide,
   watcher_at_most_once_no_redelivery
     [⟨"u", [⟨"worker", false⟩], false⟩, ⟨"u", [⟨"worker", false⟩], true⟩]
     ("u", ⟨"worker", false⟩) (by decide)⟩
